import Mathlib

/-!
Shallow embedding of `src/whisperx/vad.py` (whisperX-silero): the
segment-construction pipeline — `VADSegmentPipeline.merge_chunks`
(ChunkPacker), `Binarize.__init__` / `Binarize.__call__` (ScoreBinarizer)
and `merge_vad` (IntervalMerger).  Python floats are modelled as
rationals, Python exceptions (`assert`, `raise`, `NameError`) as
`Except String`.
-/

namespace WhisperXVad

/-- A VAD segment as consumed by `merge_chunks`: a record with fields
`start`, `end` (called `stop` here because `end` is a Lean keyword) and
`speaker`. -/
structure SegT where
  start : ℚ
  stop : ℚ
  speaker : String
deriving DecidableEq

/-- A value stored in one of the python dicts built by `merge_chunks`. -/
inductive DVal where
  | num : ℚ → DVal
  | pairs : List (ℚ × ℚ) → DVal
deriving DecidableEq

/-- A python dict, modelled as an association list of keys and values. -/
abbrev DRec := List (String × DVal)

/-- The dict appended to `merged_segments` in `merge_chunks` (source
lines 105-109 and 117-121).  Its keys are exactly `start`, `end` and
`segments`; the source never adds a `speakers` key. -/
def mkChunk (s e : ℚ) (idxs : List (ℚ × ℚ)) : DRec :=
  [("start", DVal.num s), ("end", DVal.num e), ("segments", DVal.pairs idxs)]

/-- Read the `start` entry of a chunk dict. -/
def chunkStart (c : DRec) : ℚ :=
  match c.lookup "start" with | some (DVal.num q) => q | _ => 0

/-- Read the `end` entry of a chunk dict. -/
def chunkEnd (c : DRec) : ℚ :=
  match c.lookup "end" with | some (DVal.num q) => q | _ => 0

/-- Read the `segments` entry of a chunk dict. -/
def chunkSegs (c : DRec) : List (ℚ × ℚ) :=
  match c.lookup "segments" with | some (DVal.pairs l) => l | _ => []

@[simp] theorem chunkStart_mkChunk (s e : ℚ) (idxs : List (ℚ × ℚ)) :
    chunkStart (mkChunk s e idxs) = s := rfl

@[simp] theorem chunkEnd_mkChunk (s e : ℚ) (idxs : List (ℚ × ℚ)) :
    chunkEnd (mkChunk s e idxs) = e := rfl

@[simp] theorem chunkSegs_mkChunk (s e : ℚ) (idxs : List (ℚ × ℚ)) :
    chunkSegs (mkChunk s e idxs) = idxs := rfl

/-- The `for seg in segments_list` loop of `merge_chunks` (source lines
103-121), including the trailing unconditional append of the final
chunk.  State: `curr_start`, `curr_end`, `seg_idxs`, `speaker_idxs` and
the accumulated `merged_segments`.  `speaker_idxs` is carried exactly as
in the source: it is filled and reset but never written to any output
dict. -/
def mergeGo (chunkSize : ℚ) :
    List SegT → ℚ → ℚ → List (ℚ × ℚ) → List String → List DRec → List DRec
  | [], currStart, currEnd, segIdxs, _, acc =>
      acc ++ [mkChunk currStart currEnd segIdxs]
  | seg :: rest, currStart, currEnd, segIdxs, spkIdxs, acc =>
      if chunkSize < seg.stop - currStart ∧ 0 < currEnd - currStart then
        mergeGo chunkSize rest seg.start seg.stop
          [(seg.start, seg.stop)] [seg.speaker]
          (acc ++ [mkChunk currStart currEnd segIdxs])
      else
        mergeGo chunkSize rest currStart seg.stop
          (segIdxs ++ [(seg.start, seg.stop)]) (spkIdxs ++ [seg.speaker]) acc

/-- `VADSegmentPipeline.merge_chunks` (source lines 85-122).  The two
`assert` statements (`chunk_size > 0` first, then non-emptiness) are
modelled as `Except.error`; on success the loop runs with
`curr_end = 0` and `curr_start = segments_list[0].start`. -/
def mergeChunks (segs : List SegT) (chunkSize : ℚ) : Except String (List DRec) :=
  if chunkSize ≤ 0 then Except.error "AssertionError: chunk_size must be positive"
  else
    match segs with
    | [] => Except.error "AssertionError: segments_list is empty."
    | s0 :: _ => Except.ok (mergeGo chunkSize segs s0.start 0 [] [] [])

/-- Concatenation of per-chunk segment lists, in output order. -/
def flattenPairs : List (List (ℚ × ℚ)) → List (ℚ × ℚ)
  | [] => []
  | l :: ls => l ++ flattenPairs ls

@[simp] theorem flattenPairs_nil : flattenPairs [] = [] := rfl

@[simp] theorem flattenPairs_cons (l : List (ℚ × ℚ)) (ls : List (List (ℚ × ℚ))) :
    flattenPairs (l :: ls) = l ++ flattenPairs ls := rfl

theorem flattenPairs_append (a b : List (List (ℚ × ℚ))) :
    flattenPairs (a ++ b) = flattenPairs a ++ flattenPairs b := by
  induction a with
  | nil => simp
  | cons l ls ih => simp [ih]

/-- Unwrap an `Except` result to its chunk list (empty on error). -/
def chunksOf : Except String (List DRec) → List DRec
  | Except.ok l => l
  | Except.error _ => []

/-- Whether an `Except` result is a success. -/
def isOkE {α : Type} : Except String α → Bool
  | Except.ok _ => true
  | Except.error _ => false

theorem mergeGo_flatten (chunkSize : ℚ) (rest : List SegT) :
    ∀ (cs ce : ℚ) (idxs : List (ℚ × ℚ)) (spk : List String) (acc : List DRec),
      flattenPairs ((mergeGo chunkSize rest cs ce idxs spk acc).map chunkSegs) =
        flattenPairs (acc.map chunkSegs) ++ idxs ++
          rest.map (fun s => (s.start, s.stop)) := by
  induction rest with
  | nil =>
      intro cs ce idxs spk acc
      simp [mergeGo, flattenPairs_append]
  | cons seg rest ih =>
      intro cs ce idxs spk acc
      rw [mergeGo]
      by_cases h : chunkSize < seg.stop - cs ∧ 0 < ce - cs
      · rw [if_pos h, ih]
        simp [flattenPairs_append, List.append_assoc]
      · rw [if_neg h, ih]
        simp [List.append_assoc]

theorem mergeGo_ne_nil (chunkSize : ℚ) (rest : List SegT) :
    ∀ (cs ce : ℚ) (idxs : List (ℚ × ℚ)) (spk : List String) (acc : List DRec),
      mergeGo chunkSize rest cs ce idxs spk acc ≠ [] := by
  induction rest with
  | nil =>
      intro cs ce idxs spk acc
      simp [mergeGo]
  | cons seg rest ih =>
      intro cs ce idxs spk acc
      rw [mergeGo]
      by_cases h : chunkSize < seg.stop - cs ∧ 0 < ce - cs
      · rw [if_pos h]; exact ih _ _ _ _ _
      · rw [if_neg h]; exact ih _ _ _ _ _

/-- Invariant proof for the chunk-duration bound: every chunk emitted by
the loop has a non-empty `segments` list, and if it holds more than one
segment then `end - start ≤ chunkSize`. -/
theorem mergeGo_bounded (chunkSize : ℚ) (rest : List SegT) :
    ∀ (cs ce : ℚ) (idxs : List (ℚ × ℚ)) (spk : List String) (acc : List DRec),
      List.Pairwise (fun a b : SegT => a.start ≤ b.start) rest →
      (∀ s ∈ rest, s.start < s.stop) →
      (∀ s ∈ rest, cs ≤ s.start) →
      (idxs = [] → ce - cs ≤ 0) →
      (idxs ≠ [] → 0 < ce - cs ∧ (1 < idxs.length → ce - cs ≤ chunkSize)) →
      (rest = [] → idxs ≠ []) →
      (∀ c ∈ acc, chunkSegs c ≠ [] ∧
        (1 < (chunkSegs c).length → chunkEnd c - chunkStart c ≤ chunkSize)) →
      ∀ c ∈ mergeGo chunkSize rest cs ce idxs spk acc,
        chunkSegs c ≠ [] ∧
          (1 < (chunkSegs c).length → chunkEnd c - chunkStart c ≤ chunkSize) := by
  induction rest with
  | nil =>
      intro cs ce idxs spk acc _ _ _ _ hne hrne hacc c hc
      rw [mergeGo] at hc
      rcases List.mem_append.mp hc with hc | hc
      · exact hacc c hc
      · rcases List.mem_singleton.mp hc with rfl
        refine ⟨by simpa using hrne rfl, ?_⟩
        simpa using (hne (hrne rfl)).2
  | cons seg rest ih =>
      intro cs ce idxs spk acc hsort hval hlb hid hne _ hacc
      have hsort' := (List.pairwise_cons.mp hsort).2
      have hsega := (List.pairwise_cons.mp hsort).1
      have hsegv : seg.start < seg.stop := hval seg (List.mem_cons_self _ _)
      have hsegl : cs ≤ seg.start := hlb seg (List.mem_cons_self _ _)
      rw [mergeGo]
      by_cases h : chunkSize < seg.stop - cs ∧ 0 < ce - cs
      · rw [if_pos h]
        apply ih seg.start seg.stop [(seg.start, seg.stop)] [seg.speaker]
          (acc ++ [mkChunk cs ce idxs]) hsort'
          (fun s hs => hval s (List.mem_cons_of_mem _ hs)) hsega
          (by simp) (fun _ => ⟨by linarith, by simp⟩) (fun _ => by simp)
        intro c hc
        rcases List.mem_append.mp hc with hc | hc
        · exact hacc c hc
        · rcases List.mem_singleton.mp hc with rfl
          have hidne : idxs ≠ [] := by
            intro hnil
            have := hid hnil
            linarith [h.2]
          refine ⟨by simpa using hidne, ?_⟩
          simpa using (hne hidne).2
      · rw [if_neg h]
        apply ih cs seg.stop (idxs ++ [(seg.start, seg.stop)])
          (spk ++ [seg.speaker]) acc hsort'
          (fun s hs => hval s (List.mem_cons_of_mem _ hs))
          (fun s hs => le_trans hsegl (hsega s hs))
          (by simp) ?_ (fun _ => by simp) hacc
        intro _
        constructor
        · linarith
        · intro hlen
          have hidne : idxs ≠ [] := by
            intro hnil
            simp [hnil] at hlen
          have h2 := (hne hidne).1
          have : ¬ chunkSize < seg.stop - cs := fun hlt => h ⟨hlt, h2⟩
          linarith [not_lt.mp this]

/-- C1: For every non-empty, start-ordered input segment list and
`chunkSize > 0`, flattening the `segments` lists of all chunk records
returned by `merge_chunks`, in output order, yields exactly the sequence
of `(start, end)` pairs of the input segments, in the original order,
with no segment lost, duplicated, or reordered. -/
theorem C1_flatten_exact (segs : List SegT) (chunkSize : ℚ) (out : List DRec)
    (hne : segs ≠ [])
    (hsort : List.Pairwise (fun a b : SegT => a.start ≤ b.start) segs)
    (hcs : 0 < chunkSize)
    (hok : mergeChunks segs chunkSize = Except.ok out) :
    flattenPairs (out.map chunkSegs) = segs.map (fun s => (s.start, s.stop)) := by
  unfold mergeChunks at hok
  rw [if_neg (not_le.mpr hcs)] at hok
  match segs, hne with
  | s0 :: rest, _ =>
    simp only [Except.ok.injEq] at hok
    subst hok
    simpa using mergeGo_flatten chunkSize (s0 :: rest) s0.start 0 [] [] []

theorem C1_witness :
    (([⟨0, 10, "A"⟩, ⟨10, 25, "B"⟩] : List SegT) ≠ [] ∧
      List.Pairwise (fun a b : SegT => a.start ≤ b.start)
        [⟨0, 10, "A"⟩, ⟨10, 25, "B"⟩] ∧
      (0 : ℚ) < 20) ∧
    flattenPairs ((chunksOf (mergeChunks [⟨0, 10, "A"⟩, ⟨10, 25, "B"⟩] 20)).map chunkSegs) =
      ([⟨0, 10, "A"⟩, ⟨10, 25, "B"⟩] : List SegT).map (fun s => (s.start, s.stop)) := by
  refine ⟨⟨by simp, by norm_num [List.pairwise_cons], by norm_num⟩, ?_⟩
  exact C1_flatten_exact [⟨0, 10, "A"⟩, ⟨10, 25, "B"⟩] 20
    (chunksOf (mergeChunks [⟨0, 10, "A"⟩, ⟨10, 25, "B"⟩] 20))
    (by simp) (by norm_num [List.pairwise_cons]) (by norm_num)
    (by norm_num [mergeChunks, mergeGo, chunksOf])

/-- C2: the claim says every chunk record carries the four fields
`start`, `end`, `segments` and `speakers`.  The code collects a
`speaker_idxs` list in parallel with `seg_idxs` and resets it at every
chunk boundary, but the emitted dicts (source lines 105-109 and 117-121)
contain only the keys `start`, `end` and `segments`: no `speakers` key is
ever written.  Evaluated at the one-segment input
`[Segment(0, 1, "A")]` with `chunk_size = 30`. -/
theorem C2_no_speakers_field :
    mergeChunks [⟨0, 1, "A"⟩] 30 = Except.ok [mkChunk 0 1 [(0, 1)]] ∧
    (mkChunk 0 1 [(0, 1)]).map Prod.fst = ["start", "end", "segments"] ∧
    (mkChunk 0 1 [(0, 1)]).lookup "speakers" = none := by
  refine ⟨by norm_num [mergeChunks, mergeGo], by rfl, by rfl⟩

/-- C3 counterexample: the claim as stated (sorted input, `start < end`
per segment, `chunkSize > 0`) fails when the first segment starts at a
negative time: with input `[Segment(-5, -3, "A")]` and `chunk_size = 1`,
the initial `curr_end = 0` makes `curr_end - curr_start = 5 > 0` on the
very first iteration, so an empty chunk `{start: -5, end: 0, segments: []}`
is emitted whose duration 5 exceeds `chunkSize` yet which contains zero
segments, not exactly one. -/
theorem C3_counterexample :
    (List.Pairwise (fun a b : SegT => a.start ≤ b.start)
        [({ start := -5, stop := -3, speaker := "A" } : SegT)] ∧
      (∀ s ∈ [({ start := -5, stop := -3, speaker := "A" } : SegT)], s.start < s.stop) ∧
      (0 : ℚ) < 1) ∧
    chunksOf (mergeChunks [({ start := -5, stop := -3, speaker := "A" } : SegT)] 1) =
      [mkChunk (-5) 0 [], mkChunk (-5) (-3) [(-5, -3)]] ∧
    ¬ (∀ c ∈ chunksOf (mergeChunks
          [({ start := -5, stop := -3, speaker := "A" } : SegT)] 1),
        (1 : ℚ) < chunkEnd c - chunkStart c → (chunkSegs c).length = 1) := by
  refine ⟨⟨by simp, by norm_num, by norm_num⟩,
    by norm_num [mergeChunks, mergeGo, chunksOf], ?_⟩
  intro h
  have := h (mkChunk (-5) 0 [])
    (by norm_num [mergeChunks, mergeGo, chunksOf, mkChunk]) (by norm_num)
  simp at this

/-- C3 (amended): additionally requiring every segment to start at a
non-negative time — the invariant the spec's own data model imposes —
every chunk produced by `merge_chunks` that contains more than one
segment satisfies `end - start ≤ chunkSize`, and a chunk whose
`end - start` exceeds `chunkSize` contains exactly one segment. -/
theorem C3_chunk_duration_amended (segs : List SegT) (chunkSize : ℚ) (out : List DRec)
    (hsort : List.Pairwise (fun a b : SegT => a.start ≤ b.start) segs)
    (hval : ∀ s ∈ segs, 0 ≤ s.start ∧ s.start < s.stop)
    (hcs : 0 < chunkSize)
    (hok : mergeChunks segs chunkSize = Except.ok out) :
    ∀ c ∈ out,
      (1 < (chunkSegs c).length → chunkEnd c - chunkStart c ≤ chunkSize) ∧
      (chunkSize < chunkEnd c - chunkStart c → (chunkSegs c).length = 1) := by
  unfold mergeChunks at hok
  rw [if_neg (not_le.mpr hcs)] at hok
  match segs, hok, hsort, hval with
  | s0 :: rest, hok, hsort, hval =>
    simp only [Except.ok.injEq] at hok
    subst hok
    have hgood := mergeGo_bounded chunkSize (s0 :: rest) s0.start 0 [] [] []
      hsort (fun s hs => (hval s hs).2)
      (by
        intro s hs
        rcases List.mem_cons.mp hs with rfl | hs
        · exact le_refl _
        · exact (List.pairwise_cons.mp hsort).1 s hs)
      (fun _ => by linarith [(hval s0 (List.mem_cons_self _ _)).1])
      (fun hne => absurd rfl hne)
      (fun h => absurd h (by simp))
      (by simp)
    intro c hc
    have ⟨h1, h2⟩ := hgood c hc
    refine ⟨h2, ?_⟩
    intro hgt
    have hlen0 : (chunkSegs c).length ≠ 0 := fun h0 => h1 (List.length_eq_zero.mp h0)
    by_contra hne1
    have : 1 < (chunkSegs c).length := by omega
    linarith [h2 this]

theorem C3_amended_witness :
    (List.Pairwise (fun a b : SegT => a.start ≤ b.start)
        ([⟨0, 10, "A"⟩, ⟨10, 25, "B"⟩, ⟨25, 40, "C"⟩] : List SegT) ∧
      (∀ s ∈ ([⟨0, 10, "A"⟩, ⟨10, 25, "B"⟩, ⟨25, 40, "C"⟩] : List SegT),
        0 ≤ s.start ∧ s.start < s.stop) ∧
      (0 : ℚ) < 20) ∧
    (∀ c ∈ chunksOf (mergeChunks [⟨0, 10, "A"⟩, ⟨10, 25, "B"⟩, ⟨25, 40, "C"⟩] 20),
      (1 < (chunkSegs c).length → chunkEnd c - chunkStart c ≤ 20) ∧
      (20 < chunkEnd c - chunkStart c → (chunkSegs c).length = 1)) := by
  refine ⟨⟨by norm_num [List.pairwise_cons], by norm_num, by norm_num⟩, ?_⟩
  exact C3_chunk_duration_amended [⟨0, 10, "A"⟩, ⟨10, 25, "B"⟩, ⟨25, 40, "C"⟩] 20
    (chunksOf (mergeChunks [⟨0, 10, "A"⟩, ⟨10, 25, "B"⟩, ⟨25, 40, "C"⟩] 20))
    (by norm_num [List.pairwise_cons]) (by norm_num) (by norm_num)
    (by norm_num [mergeChunks, mergeGo, chunksOf])

/-- C9: `merge_chunks` fails (with an `assert`) returning no partial
result if and only if the input list is empty or `chunk_size ≤ 0`; for
every non-empty input with `chunk_size > 0` it returns at least one
chunk, because the final in-progress chunk is appended unconditionally. -/
theorem C9_precondition_and_nonempty (segs : List SegT) (chunkSize : ℚ) :
    (isOkE (mergeChunks segs chunkSize) = false ↔ segs = [] ∨ chunkSize ≤ 0) ∧
    (∀ out, mergeChunks segs chunkSize = Except.ok out → 1 ≤ out.length) := by
  constructor
  · unfold mergeChunks
    by_cases h : chunkSize ≤ 0
    · rw [if_pos h]
      simp [isOkE, h]
    · rw [if_neg h]
      match segs with
      | [] => simp [isOkE]
      | s0 :: rest => simp [isOkE, h]
  · intro out hok
    unfold mergeChunks at hok
    by_cases h : chunkSize ≤ 0
    · rw [if_pos h] at hok
      exact absurd hok (by simp)
    · rw [if_neg h] at hok
      match segs, hok with
      | s0 :: rest, hok =>
        simp only [Except.ok.injEq] at hok
        subst hok
        have := mergeGo_ne_nil chunkSize (s0 :: rest) s0.start 0 [] [] []
        exact Nat.one_le_iff_ne_zero.mpr fun h0 =>
          this (List.length_eq_zero.mp h0)

theorem C9_witness :
    (isOkE (mergeChunks [(⟨0, 1, "A"⟩ : SegT)] 30) = false ↔
      ([(⟨0, 1, "A"⟩ : SegT)] = [] ∨ (30 : ℚ) ≤ 0)) ∧
    1 ≤ (chunksOf (mergeChunks [(⟨0, 1, "A"⟩ : SegT)] 30)).length := by
  refine ⟨(C9_precondition_and_nonempty [⟨0, 1, "A"⟩] 30).1, ?_⟩
  exact (C9_precondition_and_nonempty [⟨0, 1, "A"⟩] 30).2
    (chunksOf (mergeChunks [⟨0, 1, "A"⟩] 30))
    (by norm_num [mergeChunks, mergeGo, chunksOf])

/-! ## ScoreBinarizer: `Binarize` -/

/-- `Binarize.__init__` (source line 166): `self.offset = offset or onset`.
Python's `or` falls through to `onset` when `offset` is falsy, i.e. when
it is `None` or `0.0`. -/
def binInitOffset (offset : Option ℚ) (onset : ℚ) : ℚ :=
  match offset with
  | none => onset
  | some o => if o = 0 then onset else o

/-- The configuration of a `Binarize` object after `__init__`.  `offset`
is the effective offset.  `maxDuration = none` models `float('inf')`
(the default), `some m` a finite `max_duration`. -/
structure BinParams where
  onset : ℚ
  offset : ℚ
  minDurationOn : ℚ
  minDurationOff : ℚ
  padOnset : ℚ
  padOffset : ℚ
  maxDuration : Option ℚ
deriving DecidableEq

/-- `curr_duration > self.max_duration`, where `max_duration` may be
`float('inf')` (`none`), in which case the comparison is always false. -/
def durGT (maxDuration : Option ℚ) (d : ℚ) : Bool :=
  match maxDuration with
  | none => false
  | some m => decide (m < d)

/-- `np.argmin`: index of the minimum value, first occurrence on ties
(0 on the empty list, which the source never hits). -/
def argminFirst : List ℚ → ℕ
  | [] => 0
  | x :: xs => if ∀ y ∈ xs, x ≤ y then 0 else argminFirst xs + 1

/-- `search_after + np.argmin(curr_scores[search_after:])` with
`search_after = len(curr_scores) // 2` (source lines 210-212). -/
def splitIdx (scores : List ℚ) : ℕ :=
  scores.length / 2 + argminFirst (scores.drop (scores.length / 2))

/-- `active[region, k] = label` on a pyannote `Annotation`
(`Annotation.__setitem__` ignores empty segments: a region whose start
is not strictly below its end is dropped, not stored). -/
def annotAdd (acc : List (ℚ × ℚ)) (s e : ℚ) : List (ℚ × ℚ) :=
  if s < e then acc ++ [(s, e)] else acc

/-- Per-track loop state of `Binarize.__call__`: `start`, `is_active`,
`curr_scores`, `curr_timestamps`, and the `(segment)` entries this track
has written into `active`. -/
structure TrackState where
  start : ℚ
  isActive : Bool
  currScores : List ℚ
  currTimestamps : List ℚ
  active : List (ℚ × ℚ)
deriving DecidableEq

/-- One iteration of the `for t, y in zip(timestamps[1:], k_scores[1:])`
loop (source lines 203-234), including the unconditional append of
`(y, t)` to the run buffers at the bottom of the loop body. -/
def binStep (P : BinParams) (st : TrackState) (t y : ℚ) : TrackState :=
  if st.isActive then
    if durGT P.maxDuration (t - st.start) then
      { start := st.currTimestamps.getD (splitIdx st.currScores) 0
        isActive := true
        currScores := st.currScores.drop (splitIdx st.currScores + 1) ++ [y]
        currTimestamps := st.currTimestamps.drop (splitIdx st.currScores + 1) ++ [t]
        active := annotAdd st.active (st.start - P.padOnset)
          (st.currTimestamps.getD (splitIdx st.currScores) 0 + P.padOffset) }
    else if y < P.offset then
      { start := t
        isActive := false
        currScores := [y]
        currTimestamps := [t]
        active := annotAdd st.active (st.start - P.padOnset) (t + P.padOffset) }
    else
      { st with
        currScores := st.currScores ++ [y]
        currTimestamps := st.currTimestamps ++ [t] }
  else
    if P.onset < y then
      { st with
        start := t
        isActive := true
        currScores := st.currScores ++ [y]
        currTimestamps := st.currTimestamps ++ [t] }
    else
      { st with
        currScores := st.currScores ++ [y]
        currTimestamps := st.currTimestamps ++ [t] }

/-- The whole per-track loop; also threads the last value bound to the
loop variable `t` (`none` when the loop body never ran). -/
def binLoop (P : BinParams) : TrackState → Option ℚ → List (ℚ × ℚ) → TrackState × Option ℚ
  | st, lastT, [] => (st, lastT)
  | st, _, (t, y) :: rest => binLoop P (binStep P st t y) (some t) rest

/-- The initial per-track state (source lines 199-202): `start =
timestamps[0]`, `is_active = k_scores[0] > onset`, buffers seeded with
frame 0. -/
def initState (P : BinParams) (t0 y0 : ℚ) : TrackState :=
  { start := t0, isActive := P.onset < y0, currScores := [y0],
    currTimestamps := [t0], active := [] }

/-- The `if is_active` final emission after the loop (source lines
236-239).  It reads the loop variable `t`, which is unbound
(`NameError`) when the loop body never ran. -/
def binFinish (P : BinParams) (st : TrackState) (lastT : Option ℚ) :
    Except String (List (ℚ × ℚ)) :=
  if st.isActive then
    match lastT with
    | none => Except.error "NameError: name t is not defined"
    | some t =>
        Except.ok (annotAdd st.active (st.start - P.padOnset) (t + P.padOffset))
  else Except.ok st.active

/-- One track of `Binarize.__call__` (source lines 198-239): initial
state from frame 0, the loop over the remaining frames, and the final
`if is_active` emission. -/
def binarizeTrack (P : BinParams) (timestamps scores : List ℚ) :
    Except String (List (ℚ × ℚ)) :=
  match timestamps, scores with
  | t0 :: ts, y0 :: ys =>
    binFinish P (binLoop P (initState P t0 y0) none (ts.zip ys)).1
      (binLoop P (initState P t0 y0) none (ts.zip ys)).2
  | _, _ => Except.error "IndexError: empty score grid"

/-- Sequential effectful map, mirroring the `for k, k_scores in
enumerate(scores.data.T)` loop: the first raised exception aborts the
whole call. -/
def mapMExcept {α β : Type} (f : α → Except String β) : List α → Except String (List β)
  | [] => Except.ok []
  | a :: as =>
    match f a with
    | Except.error e => Except.error e
    | Except.ok b =>
      match mapMExcept f as with
      | Except.error e => Except.error e
      | Except.ok bs => Except.ok (b :: bs)

/-! ## The support/collar merge primitive (pyannote `Timeline.support`) -/

/-- Order on intervals used by pyannote's sorted timeline: by start. -/
def rStart (a b : ℚ × ℚ) : Prop := a.1 ≤ b.1

instance : DecidableRel rStart := fun a b => inferInstanceAs (Decidable (a.1 ≤ b.1))

instance : IsTotal (ℚ × ℚ) rStart := ⟨fun a b => le_total a.1 b.1⟩

instance : IsTrans (ℚ × ℚ) rStart := ⟨fun _ _ _ h h' => le_trans h h'⟩

/-- Sort intervals by start time. -/
def sortPairs (l : List (ℚ × ℚ)) : List (ℚ × ℚ) := List.insertionSort rStart l

/-- The sweep of `Timeline.support(collar)` over a start-sorted list:
merge the next interval into the current one when they overlap/touch or
their gap is below `collar`, taking the union; otherwise close the
current interval. -/
def sweep (collar : ℚ) : (ℚ × ℚ) → List (ℚ × ℚ) → List (ℚ × ℚ)
  | cur, [] => [cur]
  | cur, x :: rest =>
    if x.1 - cur.2 < collar ∨ x.1 ≤ cur.2 then
      sweep collar (min cur.1 x.1, max cur.2 x.2) rest
    else
      cur :: sweep collar x rest

/-- `Timeline.support(collar)`: sort, then sweep. -/
def support (collar : ℚ) (l : List (ℚ × ℚ)) : List (ℚ × ℚ) :=
  match sortPairs l with
  | [] => []
  | x :: xs => sweep collar x xs

/-- The `min_duration_on` post-filter of `Binarize.__call__` (source
lines 249-252), applied to every track. -/
def minDurOnFilter (mdOn : ℚ) (l : List (List (ℚ × ℚ))) : List (List (ℚ × ℚ)) :=
  if 0 < mdOn then
    l.map (List.filter (fun p => decide (¬ (p.2 - p.1 < mdOn))))
  else l

/-- `Binarize.__call__` over a whole grid, one score column per track:
the per-track loops, then the support/collar merge guarded by
`pad_offset > 0 or pad_onset > 0 or min_duration_off > 0` — which raises
`NotImplementedError` when `max_duration < inf` (source lines 243-246) —
then the `min_duration_on` filter. -/
def binarize (P : BinParams) (timestamps : List ℚ) (tracks : List (List ℚ)) :
    Except String (List (List (ℚ × ℚ))) :=
  match mapMExcept (binarizeTrack P timestamps) tracks with
  | Except.error e => Except.error e
  | Except.ok perTrack =>
    if 0 < P.padOffset ∨ 0 < P.padOnset ∨ 0 < P.minDurationOff then
      match P.maxDuration with
      | some _ => Except.error "NotImplementedError: This would break current max_duration param"
      | none =>
          Except.ok (minDurOnFilter P.minDurationOn
            (perTrack.map (support P.minDurationOff)))
    else Except.ok (minDurOnFilter P.minDurationOn perTrack)

/-- Unwrap a binarize result (empty on error). -/
def segsOfE : Except String (List (List (ℚ × ℚ))) → List (List (ℚ × ℚ))
  | Except.ok l => l
  | Except.error _ => []

/-! ## IntervalMerger: `merge_vad` -/

/-- The `for k, vad_t in enumerate(vad_arr)` loop of `merge_vad`
(source lines 260-262): each input interval is padded and stored in an
`Annotation` under its own track but the shared label `1`; empty regions
are dropped by `__setitem__`. -/
def padActive (vadArr : List (ℚ × ℚ)) (padOnset padOffset : ℚ) : List (ℚ × ℚ) :=
  vadArr.foldl (fun acc p => annotAdd acc (p.1 - padOnset) (p.2 + padOffset)) []

/-- The conditional support/collar merge of `merge_vad` (source lines
264-265): it runs only when `pad_offset > 0 or pad_onset > 0 or
min_duration_off > 0`, and acts across all intervals since they share
one label; otherwise the annotation is left as is (its iteration order
is segment-sorted either way). -/
def mergeVadMerged (vadArr : List (ℚ × ℚ))
    (padOnset padOffset minDurationOff : ℚ) : List (ℚ × ℚ) :=
  if 0 < padOffset ∨ 0 < padOnset ∨ 0 < minDurationOff then
    support minDurationOff (padActive vadArr padOnset padOffset)
  else sortPairs (padActive vadArr padOnset padOffset)

/-- `merge_vad` (source lines 257-275): padding, conditional
support/collar merge, then the `min_duration_on` filter; the result is
read off through `for_json`, which iterates in segment-sorted order. -/
def mergeVad (vadArr : List (ℚ × ℚ))
    (padOnset padOffset minDurationOff minDurationOn : ℚ) : List (ℚ × ℚ) :=
  if 0 < minDurationOn then
    (mergeVadMerged vadArr padOnset padOffset minDurationOff).filter
      (fun p => decide (¬ (p.2 - p.1 < minDurationOn)))
  else mergeVadMerged vadArr padOnset padOffset minDurationOff

/-! ### Helper lemmas about list indexing and `argminFirst` -/

theorem getD_drop_eq (l : List ℚ) : ∀ (n k : ℕ), (l.drop n).getD k 0 = l.getD (n + k) 0 := by
  induction l with
  | nil => intro n k; simp
  | cons x xs ih =>
    intro n k
    match n with
    | 0 => simp
    | n + 1 =>
      have h1 : n + 1 + k = (n + k) + 1 := by omega
      rw [List.drop_succ_cons, ih n k, h1, List.getD_cons_succ]

theorem getD_mem_of_lt (l : List ℚ) : ∀ (j : ℕ), j < l.length → l.getD j 0 ∈ l := by
  induction l with
  | nil => intro j h; simp at h
  | cons x xs ih =>
    intro j h
    match j with
    | 0 => simp
    | j + 1 =>
      rw [List.getD_cons_succ]
      exact List.mem_cons_of_mem _ (ih j (by simpa using h))

theorem exists_getD_of_mem (l : List ℚ) (y : ℚ) (h : y ∈ l) :
    ∃ j, j < l.length ∧ l.getD j 0 = y := by
  induction l with
  | nil => simp at h
  | cons x xs ih =>
    rcases List.mem_cons.mp h with rfl | h
    · exact ⟨0, by simp, by simp⟩
    · rcases ih h with ⟨j, hj, hval⟩
      exact ⟨j + 1, by simpa using hj, by simpa using hval⟩

theorem argminFirst_lt_length : ∀ (l : List ℚ), l ≠ [] → argminFirst l < l.length := by
  intro l
  induction l with
  | nil => intro h; exact absurd rfl h
  | cons x xs ih =>
    intro _
    rw [argminFirst]
    by_cases h : ∀ y ∈ xs, x ≤ y
    · rw [if_pos h]; simp
    · rw [if_neg h]
      have hxs : xs ≠ [] := by
        intro hnil
        exact h (by simp [hnil])
      have := ih hxs
      simpa using Nat.succ_lt_succ this

theorem argminFirst_le : ∀ (l : List ℚ) (j : ℕ), j < l.length →
    l.getD (argminFirst l) 0 ≤ l.getD j 0 := by
  intro l
  induction l with
  | nil => intro j h; simp at h
  | cons x xs ih =>
    intro j hj
    rw [argminFirst]
    by_cases h : ∀ y ∈ xs, x ≤ y
    · rw [if_pos h]
      match j with
      | 0 => simp
      | j + 1 =>
        rw [List.getD_cons_zero, List.getD_cons_succ]
        exact h _ (getD_mem_of_lt xs j (by simpa using hj))
    · rw [if_neg h]
      push_neg at h
      rcases h with ⟨y, hy, hlt⟩
      rcases exists_getD_of_mem xs y hy with ⟨jy, hjy, hval⟩
      match j with
      | 0 =>
        rw [List.getD_cons_zero, List.getD_cons_succ]
        calc xs.getD (argminFirst xs) 0 ≤ xs.getD jy 0 := ih jy hjy
          _ = y := hval
          _ ≤ x := le_of_lt hlt
      | j + 1 =>
        rw [List.getD_cons_succ, List.getD_cons_succ]
        exact ih j (by simpa using hj)

theorem argminFirst_earliest : ∀ (l : List ℚ) (j : ℕ), j < argminFirst l →
    l.getD (argminFirst l) 0 < l.getD j 0 := by
  intro l
  induction l with
  | nil => intro j h; simp [argminFirst] at h
  | cons x xs ih =>
    intro j hj
    rw [argminFirst] at hj ⊢
    by_cases h : ∀ y ∈ xs, x ≤ y
    · rw [if_pos h] at hj; omega
    · rw [if_neg h] at hj ⊢
      push_neg at h
      rcases h with ⟨y, hy, hlt⟩
      rcases exists_getD_of_mem xs y hy with ⟨jy, hjy, hval⟩
      match j with
      | 0 =>
        rw [List.getD_cons_zero, List.getD_cons_succ]
        calc xs.getD (argminFirst xs) 0 ≤ xs.getD jy 0 := argminFirst_le xs jy hjy
          _ = y := hval
          _ < x := hlt
      | j + 1 =>
        rw [List.getD_cons_succ, List.getD_cons_succ]
        exact ih j (by omega)

/-- C4: in `Binarize.__call__`, when a track is active and the run
duration `t - start` exceeds a finite `max_duration`, the split index is
the index of the minimum score over buffer indices `[L/2, L)` (first
occurrence on ties, `L` the current buffer length); the state after the
iteration has the emitted region `[start - pad_onset,
splitTime + pad_offset]` appended (via the annotation, which drops empty
regions), `start = splitTime`, the buffers cut after the split index
(with the current `(y, t)` then appended, as the loop body always does),
and the track still active. -/
theorem C4_max_duration_split (P : BinParams) (st : TrackState) (t y m : ℚ)
    (hact : st.isActive = true) (hmd : P.maxDuration = some m)
    (hdur : m < t - st.start) (hne : st.currScores ≠ []) :
    (st.currScores.length / 2 ≤ splitIdx st.currScores ∧
      splitIdx st.currScores < st.currScores.length) ∧
    (∀ j, st.currScores.length / 2 ≤ j → j < st.currScores.length →
      st.currScores.getD (splitIdx st.currScores) 0 ≤ st.currScores.getD j 0) ∧
    (∀ j, st.currScores.length / 2 ≤ j → j < splitIdx st.currScores →
      st.currScores.getD (splitIdx st.currScores) 0 < st.currScores.getD j 0) ∧
    binStep P st t y =
      { start := st.currTimestamps.getD (splitIdx st.currScores) 0
        isActive := true
        currScores := st.currScores.drop (splitIdx st.currScores + 1) ++ [y]
        currTimestamps := st.currTimestamps.drop (splitIdx st.currScores + 1) ++ [t]
        active := annotAdd st.active (st.start - P.padOnset)
          (st.currTimestamps.getD (splitIdx st.currScores) 0 + P.padOffset) } := by
  have hlen : 0 < st.currScores.length := List.length_pos.mpr hne
  have hhalf : st.currScores.length / 2 < st.currScores.length :=
    Nat.div_lt_self hlen (by omega)
  have hdropne : st.currScores.drop (st.currScores.length / 2) ≠ [] := by
    intro hnil
    have := congrArg List.length hnil
    rw [List.length_drop] at this
    simp at this
    omega
  have ham := argminFirst_lt_length _ hdropne
  rw [List.length_drop] at ham
  refine ⟨⟨Nat.le_add_right _ _, by rw [splitIdx]; omega⟩, ?_, ?_, ?_⟩
  · intro j hj1 hj2
    rw [splitIdx, ← getD_drop_eq]
    have hj : j = st.currScores.length / 2 + (j - st.currScores.length / 2) := by omega
    rw [hj, ← getD_drop_eq]
    apply argminFirst_le
    rw [List.length_drop]
    omega
  · intro j hj1 hj2
    rw [splitIdx, ← getD_drop_eq]
    have hj : j = st.currScores.length / 2 + (j - st.currScores.length / 2) := by omega
    rw [hj, ← getD_drop_eq]
    apply argminFirst_earliest
    rw [splitIdx] at hj2
    omega
  · rw [binStep, if_pos (by rw [hact]), if_pos (by rw [hmd, durGT]; simpa using hdur)]

theorem C4_witness :
    (({ start := 0, isActive := true, currScores := [9 / 10, 8 / 10],
         currTimestamps := [0, 1], active := [] } : TrackState).isActive = true ∧
      ({ onset := 1 / 2, offset := 1 / 2, minDurationOn := 0, minDurationOff := 0,
         padOnset := 0, padOffset := 0, maxDuration := some 5 } : BinParams).maxDuration =
        some 5 ∧
      (5 : ℚ) < 10 - 0 ∧
      ([9 / 10, 8 / 10] : List ℚ) ≠ []) ∧
    ((([9 / 10, 8 / 10] : List ℚ).length / 2 ≤ splitIdx [9 / 10, 8 / 10] ∧
        splitIdx [9 / 10, 8 / 10] < ([9 / 10, 8 / 10] : List ℚ).length) ∧
      (∀ j, ([9 / 10, 8 / 10] : List ℚ).length / 2 ≤ j →
        j < ([9 / 10, 8 / 10] : List ℚ).length →
        ([9 / 10, 8 / 10] : List ℚ).getD (splitIdx [9 / 10, 8 / 10]) 0 ≤
          ([9 / 10, 8 / 10] : List ℚ).getD j 0) ∧
      (∀ j, ([9 / 10, 8 / 10] : List ℚ).length / 2 ≤ j →
        j < splitIdx [9 / 10, 8 / 10] →
        ([9 / 10, 8 / 10] : List ℚ).getD (splitIdx [9 / 10, 8 / 10]) 0 <
          ([9 / 10, 8 / 10] : List ℚ).getD j 0) ∧
      binStep
        { onset := 1 / 2, offset := 1 / 2, minDurationOn := 0, minDurationOff := 0,
          padOnset := 0, padOffset := 0, maxDuration := some 5 }
        { start := 0, isActive := true, currScores := [9 / 10, 8 / 10],
          currTimestamps := [0, 1], active := [] } 10 (7 / 10) =
        { start := ([0, 1] : List ℚ).getD (splitIdx [9 / 10, 8 / 10]) 0
          isActive := true
          currScores := ([9 / 10, 8 / 10] : List ℚ).drop (splitIdx [9 / 10, 8 / 10] + 1) ++ [7 / 10]
          currTimestamps := ([0, 1] : List ℚ).drop (splitIdx [9 / 10, 8 / 10] + 1) ++ [10]
          active := annotAdd [] (0 - 0)
            (([0, 1] : List ℚ).getD (splitIdx [9 / 10, 8 / 10]) 0 + 0) }) := by
  refine ⟨⟨rfl, rfl, by norm_num, by simp⟩, ?_⟩
  exact C4_max_duration_split
    { onset := 1 / 2, offset := 1 / 2, minDurationOn := 0, minDurationOff := 0,
      padOnset := 0, padOffset := 0, maxDuration := some 5 }
    { start := 0, isActive := true, currScores := [9 / 10, 8 / 10],
      currTimestamps := [0, 1], active := [] } 10 (7 / 10) 5
    rfl rfl (by norm_num) (by simp)

/-- C10: constructing `Binarize` with an explicitly supplied
`offset = 0.0` yields an effective offset equal to `onset`, not `0.0`:
`self.offset = offset or onset` treats `0.0` as falsy, so the value
`0.0` is indistinguishable from leaving `offset` unspecified, and with
`onset > 0` no caller can configure an effective offset of exactly
`0.0`. -/
theorem C10_offset_zero_falsy (onset : ℚ) (h : 0 < onset) :
    binInitOffset (some 0) onset = onset ∧
    binInitOffset (some 0) onset = binInitOffset none onset ∧
    (∀ offset : Option ℚ, binInitOffset offset onset ≠ 0) := by
  refine ⟨rfl, rfl, ?_⟩
  intro offset
  match offset with
  | none => exact ne_of_gt h
  | some o =>
    by_cases ho : o = 0
    · simp [binInitOffset, ho]
      exact ne_of_gt h
    · simp [binInitOffset, ho]

theorem C10_witness :
    (0 : ℚ) < 1 / 2 ∧
    (binInitOffset (some 0) (1 / 2) = 1 / 2 ∧
      binInitOffset (some 0) (1 / 2) = binInitOffset none (1 / 2) ∧
      (∀ offset : Option ℚ, binInitOffset offset (1 / 2) ≠ 0)) :=
  ⟨by norm_num, C10_offset_zero_falsy (1 / 2) (by norm_num)⟩

/-- C8: the claim says that for every well-formed grid — including a
single-frame grid — an active track yields a final segment
`[start - padOnset, lastTimestamp + padOffset]`.  For a grid with
exactly one frame the `for t, y in zip(timestamps[1:], k_scores[1:])`
loop never runs, so the final emission `Segment(start - self.pad_onset,
t + self.pad_offset)` (source line 238) reads the never-bound loop
variable `t` and raises `NameError` instead.  With two or more frames
the emission works as claimed: evaluated on `timestamps = [0, 1]`,
`scores = [1, 1]` it yields the segment `(0, 1)`. -/
theorem C8_final_segment_name_error :
    binarizeTrack
      { onset := 1 / 2, offset := 1 / 2, minDurationOn := 0, minDurationOff := 0,
        padOnset := 0, padOffset := 0, maxDuration := none } [0] [1] =
      Except.error "NameError: name t is not defined" ∧
    binarizeTrack
      { onset := 1 / 2, offset := 1 / 2, minDurationOn := 0, minDurationOff := 0,
        padOnset := 0, padOffset := 0, maxDuration := none } [0, 1] [1, 1] =
      Except.ok [(0, 1)] := by
  constructor
  · norm_num [binarizeTrack, initState, binFinish, binLoop]
  · norm_num [binarizeTrack, initState, binFinish, binLoop, binStep, durGT, annotAdd]

/-- C6: whenever `max_duration` is finite and the merge post-processing
is enabled (`pad_offset > 0 or pad_onset > 0 or min_duration_off > 0`),
`Binarize.__call__` raises (`NotImplementedError`, source lines 243-245)
and returns no result; when `max_duration` is infinite the same
parameters are accepted and the support/collar merge (followed by the
`min_duration_on` filter) is applied. -/
theorem binarize_eq_of_ok (P : BinParams) (ts : List ℚ) (tracks : List (List ℚ))
    (pre : List (List (ℚ × ℚ)))
    (hpre : mapMExcept (binarizeTrack P ts) tracks = Except.ok pre) :
    binarize P ts tracks =
      if 0 < P.padOffset ∨ 0 < P.padOnset ∨ 0 < P.minDurationOff then
        (match P.maxDuration with
          | some _ =>
            Except.error "NotImplementedError: This would break current max_duration param"
          | none =>
            Except.ok (minDurOnFilter P.minDurationOn
              (pre.map (support P.minDurationOff))))
      else Except.ok (minDurOnFilter P.minDurationOn pre) := by
  unfold binarize
  rw [hpre]

theorem binarize_eq_of_error (P : BinParams) (ts : List ℚ) (tracks : List (List ℚ))
    (e : String) (hpre : mapMExcept (binarizeTrack P ts) tracks = Except.error e) :
    binarize P ts tracks = Except.error e := by
  unfold binarize
  rw [hpre]

theorem C6_max_duration_merge_incompatible (P : BinParams) (ts : List ℚ)
    (tracks : List (List ℚ))
    (henabled : 0 < P.padOffset ∨ 0 < P.padOnset ∨ 0 < P.minDurationOff) :
    (∀ m, P.maxDuration = some m →
      (∀ r, binarize P ts tracks ≠ Except.ok r) ∧
      (∀ pre, mapMExcept (binarizeTrack P ts) tracks = Except.ok pre →
        binarize P ts tracks =
          Except.error "NotImplementedError: This would break current max_duration param")) ∧
    (P.maxDuration = none →
      ∀ pre, mapMExcept (binarizeTrack P ts) tracks = Except.ok pre →
        binarize P ts tracks =
          Except.ok (minDurOnFilter P.minDurationOn
            (pre.map (support P.minDurationOff)))) := by
  constructor
  · intro m hm
    constructor
    · intro r
      match hpre : mapMExcept (binarizeTrack P ts) tracks with
      | Except.error e =>
        rw [binarize_eq_of_error P ts tracks e hpre]
        simp
      | Except.ok pre =>
        rw [binarize_eq_of_ok P ts tracks pre hpre, if_pos henabled, hm]
        simp
    · intro pre hpre
      rw [binarize_eq_of_ok P ts tracks pre hpre, if_pos henabled, hm]
  · intro hm pre hpre
    rw [binarize_eq_of_ok P ts tracks pre hpre, if_pos henabled, hm]

theorem C6_witness :
    ((0 : ℚ) < 0 ∨ (0 : ℚ) < 1 ∨ (0 : ℚ) < 0) ∧
    binarize
      { onset := 1, offset := 1, minDurationOn := 0, minDurationOff := 0,
        padOnset := 1, padOffset := 0, maxDuration := some 10 } [0, 1] [[2, 2]] =
      Except.error "NotImplementedError: This would break current max_duration param" ∧
    binarize
      { onset := 1, offset := 1, minDurationOn := 0, minDurationOff := 0,
        padOnset := 1, padOffset := 0, maxDuration := none } [0, 1] [[2, 2]] =
      Except.ok [[(-1, 1)]] := by
  refine ⟨by norm_num, ?_, ?_⟩
  · exact ((C6_max_duration_merge_incompatible
      { onset := 1, offset := 1, minDurationOn := 0, minDurationOff := 0,
        padOnset := 1, padOffset := 0, maxDuration := some 10 } [0, 1] [[2, 2]]
      (by norm_num)).1 10 rfl).2 [[(-1, 1)]]
      (by norm_num [mapMExcept, binarizeTrack, initState, binFinish, binLoop, binStep, durGT, annotAdd])
  · have h := (C6_max_duration_merge_incompatible
      { onset := 1, offset := 1, minDurationOn := 0, minDurationOff := 0,
        padOnset := 1, padOffset := 0, maxDuration := none } [0, 1] [[2, 2]]
      (by norm_num)).2 rfl [[(-1, 1)]]
      (by norm_num [mapMExcept, binarizeTrack, initState, binFinish, binLoop, binStep, durGT, annotAdd])
    rw [h]
    norm_num [minDurOnFilter, support, sortPairs, List.insertionSort,
      List.orderedInsert, sweep]

/-! ### Lemmas about the support/collar sweep -/

theorem sortPairs_mem (l : List (ℚ × ℚ)) (p : ℚ × ℚ) :
    p ∈ sortPairs l ↔ p ∈ l :=
  (List.perm_insertionSort rStart l).mem_iff

theorem sortPairs_sorted (l : List (ℚ × ℚ)) :
    List.Pairwise rStart (sortPairs l) :=
  List.sorted_insertionSort rStart l

theorem sweep_valid (collar : ℚ) : ∀ (xs : List (ℚ × ℚ)) (cur : ℚ × ℚ),
    0 ≤ cur.1 ∧ cur.1 < cur.2 → (∀ p ∈ xs, 0 ≤ p.1 ∧ p.1 < p.2) →
    ∀ q ∈ sweep collar cur xs, 0 ≤ q.1 ∧ q.1 < q.2 := by
  intro xs
  induction xs with
  | nil =>
    intro cur hcur _ q hq
    rw [sweep] at hq
    rcases List.mem_singleton.mp hq with rfl
    exact hcur
  | cons x rest ih =>
    intro cur hcur hxs q hq
    have hx := hxs x (List.mem_cons_self _ _)
    rw [sweep] at hq
    by_cases h : x.1 - cur.2 < collar ∨ x.1 ≤ cur.2
    · rw [if_pos h] at hq
      refine ih (min cur.1 x.1, max cur.2 x.2) ⟨?_, ?_⟩
        (fun p hp => hxs p (List.mem_cons_of_mem _ hp)) q hq
      · exact le_min hcur.1 hx.1
      · exact lt_of_le_of_lt (min_le_left _ _) (lt_of_lt_of_le hcur.2 (le_max_left _ _))
    · rw [if_neg h] at hq
      rcases List.mem_cons.mp hq with rfl | hq
      · exact hcur
      · exact ih x hx (fun p hp => hxs p (List.mem_cons_of_mem _ hp)) q hq

theorem support_valid (collar : ℚ) (l : List (ℚ × ℚ))
    (h : ∀ p ∈ l, 0 ≤ p.1 ∧ p.1 < p.2) :
    ∀ q ∈ support collar l, 0 ≤ q.1 ∧ q.1 < q.2 := by
  intro q hq
  rw [support] at hq
  match hs : sortPairs l with
  | [] => rw [hs] at hq; simp at hq
  | x :: xs =>
    rw [hs] at hq
    have hmem : ∀ p ∈ x :: xs, 0 ≤ p.1 ∧ p.1 < p.2 := by
      intro p hp
      exact h p ((sortPairs_mem l p).mp (hs ▸ hp))
    exact sweep_valid collar xs x (hmem x (List.mem_cons_self _ _))
      (fun p hp => hmem p (List.mem_cons_of_mem _ hp)) q hq

theorem sweep_start_lb (collar : ℚ) : ∀ (xs : List (ℚ × ℚ)) (cur : ℚ × ℚ),
    List.Pairwise rStart xs → (∀ p ∈ xs, cur.1 ≤ p.1) →
    ∀ q ∈ sweep collar cur xs, cur.1 ≤ q.1 := by
  intro xs
  induction xs with
  | nil =>
    intro cur _ _ q hq
    rw [sweep] at hq
    rcases List.mem_singleton.mp hq with rfl
    exact le_refl _
  | cons x rest ih =>
    intro cur hsort hlb q hq
    have hx : cur.1 ≤ x.1 := hlb x (List.mem_cons_self _ _)
    rw [sweep] at hq
    by_cases h : x.1 - cur.2 < collar ∨ x.1 ≤ cur.2
    · rw [if_pos h] at hq
      have hmin : (min cur.1 x.1, max cur.2 x.2).1 = cur.1 := min_eq_left hx
      have := ih (min cur.1 x.1, max cur.2 x.2) (List.pairwise_cons.mp hsort).2
        (by
          intro p hp
          rw [hmin]
          exact hlb p (List.mem_cons_of_mem _ hp)) q hq
      rwa [hmin] at this
    · rw [if_neg h] at hq
      rcases List.mem_cons.mp hq with rfl | hq
      · exact le_refl _
      · exact le_trans hx (ih x (List.pairwise_cons.mp hsort).2
          (List.pairwise_cons.mp hsort).1 q hq)

theorem sweep_gap (collar : ℚ) : ∀ (xs : List (ℚ × ℚ)) (cur : ℚ × ℚ),
    List.Pairwise rStart xs → (∀ p ∈ xs, cur.1 ≤ p.1) →
    List.Pairwise (fun a b : ℚ × ℚ => a.2 < b.1 ∧ collar ≤ b.1 - a.2)
      (sweep collar cur xs) := by
  intro xs
  induction xs with
  | nil =>
    intro cur _ _
    rw [sweep]
    exact List.pairwise_singleton _ _
  | cons x rest ih =>
    intro cur hsort hlb
    have hsort' := (List.pairwise_cons.mp hsort).2
    have hrest := (List.pairwise_cons.mp hsort).1
    rw [sweep]
    by_cases h : x.1 - cur.2 < collar ∨ x.1 ≤ cur.2
    · rw [if_pos h]
      apply ih (min cur.1 x.1, max cur.2 x.2) hsort'
      intro p hp
      have : (min cur.1 x.1 : ℚ) ≤ cur.1 := min_le_left _ _
      exact le_trans this (hlb p (List.mem_cons_of_mem _ hp))
    · rw [if_neg h]
      push_neg at h
      rcases h with ⟨hgap, hover⟩
      rw [List.pairwise_cons]
      constructor
      · intro q hq
        have hxq : x.1 ≤ q.1 := sweep_start_lb collar rest x hsort' hrest q hq
        constructor
        · exact lt_of_lt_of_le hover hxq
        · have : collar ≤ x.1 - cur.2 := hgap
          linarith
      · exact ih x hsort' hrest

theorem support_gap (collar : ℚ) (l : List (ℚ × ℚ)) :
    List.Pairwise (fun a b : ℚ × ℚ => a.2 < b.1 ∧ collar ≤ b.1 - a.2)
      (support collar l) := by
  rw [support]
  match hs : sortPairs l with
  | [] => exact List.Pairwise.nil
  | x :: xs =>
    have hsorted := sortPairs_sorted l
    rw [hs] at hsorted
    exact sweep_gap collar xs x (List.pairwise_cons.mp hsorted).2
      (List.pairwise_cons.mp hsorted).1

/-! ### Validity invariant for the per-track Binarize loop -/

theorem getD_nonneg : ∀ (l : List ℚ) (i : ℕ), (∀ τ ∈ l, 0 ≤ τ) → 0 ≤ l.getD i 0 := by
  intro l
  induction l with
  | nil => intro i _; simp
  | cons x xs ih =>
    intro i h
    match i with
    | 0 => simpa using h x (List.mem_cons_self _ _)
    | i + 1 =>
      rw [List.getD_cons_succ]
      exact ih i (fun τ hτ => h τ (List.mem_cons_of_mem _ hτ))

theorem annotAdd_valid (acc : List (ℚ × ℚ)) (s e : ℚ)
    (hacc : ∀ p ∈ acc, 0 ≤ p.1 ∧ p.1 < p.2) (hs : 0 ≤ s) :
    ∀ p ∈ annotAdd acc s e, 0 ≤ p.1 ∧ p.1 < p.2 := by
  intro p hp
  rw [annotAdd] at hp
  by_cases h : s < e
  · rw [if_pos h] at hp
    rcases List.mem_append.mp hp with hp | hp
    · exact hacc p hp
    · rcases List.mem_singleton.mp hp with rfl
      exact ⟨hs, h⟩
  · rw [if_neg h] at hp
    exact hacc p hp

/-- The state invariant preserved through the per-track loop when
`pad_onset = 0` and all timestamps are non-negative. -/
def stInv (st : TrackState) : Prop :=
  0 ≤ st.start ∧ (∀ τ ∈ st.currTimestamps, 0 ≤ τ) ∧
    (∀ p ∈ st.active, 0 ≤ p.1 ∧ p.1 < p.2)

theorem binStep_inv (P : BinParams) (st : TrackState) (t y : ℚ)
    (hpad : P.padOnset = 0) (ht : 0 ≤ t) (h : stInv st) :
    stInv (binStep P st t y) := by
  obtain ⟨hstart, hts, hact⟩ := h
  rw [binStep]
  by_cases ha : st.isActive
  · rw [if_pos ha]
    by_cases hd : durGT P.maxDuration (t - st.start)
    · rw [if_pos hd]
      refine ⟨getD_nonneg _ _ hts, ?_, ?_⟩
      · intro τ hτ
        rcases List.mem_append.mp hτ with hτ | hτ
        · exact hts τ (List.drop_subset _ _ hτ)
        · rcases List.mem_singleton.mp hτ with rfl
          exact ht
      · rw [hpad, sub_zero]
        exact annotAdd_valid st.active st.start _ hact hstart
    · rw [if_neg hd]
      by_cases hy : y < P.offset
      · rw [if_pos hy]
        refine ⟨ht, ?_, ?_⟩
        · intro τ hτ
          rcases List.mem_singleton.mp hτ with rfl
          exact ht
        · rw [hpad, sub_zero]
          exact annotAdd_valid st.active st.start _ hact hstart
      · rw [if_neg hy]
        refine ⟨hstart, ?_, hact⟩
        intro τ hτ
        rcases List.mem_append.mp hτ with hτ | hτ
        · exact hts τ hτ
        · rcases List.mem_singleton.mp hτ with rfl
          exact ht
  · rw [if_neg ha]
    by_cases hy : P.onset < y
    · rw [if_pos hy]
      refine ⟨ht, ?_, hact⟩
      intro τ hτ
      rcases List.mem_append.mp hτ with hτ | hτ
      · exact hts τ hτ
      · rcases List.mem_singleton.mp hτ with rfl
        exact ht
    · rw [if_neg hy]
      refine ⟨hstart, ?_, hact⟩
      intro τ hτ
      rcases List.mem_append.mp hτ with hτ | hτ
      · exact hts τ hτ
      · rcases List.mem_singleton.mp hτ with rfl
        exact ht

theorem binLoop_inv (P : BinParams) (hpad : P.padOnset = 0) :
    ∀ (frames : List (ℚ × ℚ)) (st : TrackState) (lastT : Option ℚ),
      (∀ f ∈ frames, 0 ≤ f.1) → stInv st →
      stInv (binLoop P st lastT frames).1 := by
  intro frames
  induction frames with
  | nil => intro st lastT _ h; exact h
  | cons f rest ih =>
    intro st lastT hf h
    match f with
    | (t, y) =>
      rw [binLoop]
      exact ih (binStep P st t y) (some t)
        (fun g hg => hf g (List.mem_cons_of_mem _ hg))
        (binStep_inv P st t y hpad (hf (t, y) (List.mem_cons_self _ _)) h)

theorem binarizeTrack_valid (P : BinParams) (ts ys : List ℚ)
    (segs : List (ℚ × ℚ)) (hpad : P.padOnset = 0)
    (hts : ∀ τ ∈ ts, 0 ≤ τ)
    (hok : binarizeTrack P ts ys = Except.ok segs) :
    ∀ p ∈ segs, 0 ≤ p.1 ∧ p.1 < p.2 := by
  cases ts with
  | nil => simp [binarizeTrack] at hok
  | cons t0 ts' =>
    cases ys with
    | nil => simp [binarizeTrack] at hok
    | cons y0 ys' =>
      rw [binarizeTrack] at hok
      have hinv : stInv (binLoop P (initState P t0 y0) none (ts'.zip ys')).1 := by
        apply binLoop_inv P hpad
        · intro f hf
          have := (List.of_mem_zip (by simpa using hf)).1
          exact hts f.1 (List.mem_cons_of_mem _ this)
        · refine ⟨hts t0 (List.mem_cons_self _ _), ?_, by simp [initState]⟩
          intro τ hτ
          have hτ0 : τ = t0 := by simpa [initState] using hτ
          rw [hτ0]
          exact hts t0 (List.mem_cons_self _ _)
      obtain ⟨hstart, _, hact⟩ := hinv
      rw [binFinish.eq_def] at hok
      by_cases ha : (binLoop P (initState P t0 y0) none (ts'.zip ys')).1.isActive
      · rw [if_pos ha] at hok
        cases hr2 : (binLoop P (initState P t0 y0) none (ts'.zip ys')).2 with
        | none => rw [hr2] at hok; simp at hok
        | some tl =>
          rw [hr2] at hok
          simp only [Except.ok.injEq] at hok
          subst hok
          rw [hpad, sub_zero]
          exact annotAdd_valid _ _ _ hact hstart
      · rw [if_neg ha] at hok
        simp only [Except.ok.injEq] at hok
        subst hok
        exact hact

theorem mapMExcept_ok_mem {α β : Type} (f : α → Except String β) :
    ∀ (as : List α) (bs : List β), mapMExcept f as = Except.ok bs →
      ∀ b ∈ bs, ∃ a ∈ as, f a = Except.ok b := by
  intro as
  induction as with
  | nil =>
    intro bs h b hb
    rw [mapMExcept] at h
    simp only [Except.ok.injEq] at h
    subst h
    simp at hb
  | cons a as ih =>
    intro bs h b hb
    rw [mapMExcept] at h
    match ha : f a with
    | Except.error e => rw [ha] at h; simp at h
    | Except.ok b0 =>
      rw [ha] at h
      match hrec : mapMExcept f as with
      | Except.error e => rw [hrec] at h; simp at h
      | Except.ok bs0 =>
        rw [hrec] at h
        simp only [Except.ok.injEq] at h
        subst h
        rcases List.mem_cons.mp hb with rfl | hb
        · exact ⟨a, List.mem_cons_self _ _, ha⟩
        · rcases ih bs0 hrec b hb with ⟨a', ha', hfa'⟩
          exact ⟨a', List.mem_cons_of_mem _ ha', hfa'⟩

theorem minDurOnFilter_mem {mdOn : ℚ} {l : List (List (ℚ × ℚ))}
    {trk : List (ℚ × ℚ)} (h : trk ∈ minDurOnFilter mdOn l) :
    ∃ trk0 ∈ l, ∀ p ∈ trk, p ∈ trk0 := by
  rw [minDurOnFilter] at h
  by_cases hm : 0 < mdOn
  · rw [if_pos hm] at h
    rcases List.mem_map.mp h with ⟨trk0, htrk0, rfl⟩
    exact ⟨trk0, htrk0, fun p hp => List.mem_of_mem_filter hp⟩
  · rw [if_neg hm] at h
    exact ⟨trk, h, fun p hp => hp⟩

theorem padActive_valid (padOnset padOffset : ℚ) (hpad : padOnset = 0) :
    ∀ (l acc : List (ℚ × ℚ)),
      (∀ q ∈ l, 0 ≤ q.1) → (∀ q ∈ acc, 0 ≤ q.1 ∧ q.1 < q.2) →
      ∀ q ∈ l.foldl (fun acc p => annotAdd acc (p.1 - padOnset) (p.2 + padOffset)) acc,
        0 ≤ q.1 ∧ q.1 < q.2 := by
  intro l
  induction l with
  | nil => intro acc _ hacc q hq; exact hacc q hq
  | cons x xs ih =>
    intro acc hl hacc q hq
    rw [List.foldl_cons] at hq
    apply ih (annotAdd acc (x.1 - padOnset) (x.2 + padOffset))
      (fun r hr => hl r (List.mem_cons_of_mem _ hr)) ?_ q hq
    apply annotAdd_valid acc _ _ hacc
    rw [hpad, sub_zero]
    exact hl x (List.mem_cons_self _ _)

theorem mergeVadMerged_valid (vadArr : List (ℚ × ℚ)) (pOn pOff mdOff : ℚ)
    (hpad : pOn = 0) (hval : ∀ q ∈ vadArr, 0 ≤ q.1) :
    ∀ p ∈ mergeVadMerged vadArr pOn pOff mdOff, 0 ≤ p.1 ∧ p.1 < p.2 := by
  intro p hp
  have hpv : ∀ q ∈ padActive vadArr pOn pOff, 0 ≤ q.1 ∧ q.1 < q.2 :=
    padActive_valid pOn pOff hpad vadArr [] hval (by simp)
  rw [mergeVadMerged] at hp
  by_cases h : 0 < pOff ∨ 0 < pOn ∨ 0 < mdOff
  · rw [if_pos h] at hp
    exact support_valid _ _ hpv p hp
  · rw [if_neg h] at hp
    exact hpv p ((sortPairs_mem _ p).mp hp)

/-- C5 counterexample: the claim (for every parameter configuration,
all produced segments have `start < end` with both non-negative) fails
for `merge_vad` as soon as `pad_onset > 0`: on the single non-negative
interval `(0, 2)` with `pad_onset = 1`, the output segment is `(-1, 2)`,
whose start is negative. -/
theorem C5_counterexample :
    mergeVad [((0 : ℚ), (2 : ℚ))] 1 0 0 0 = [(-1, 2)] ∧
    ¬ (∀ p ∈ mergeVad [((0 : ℚ), (2 : ℚ))] 1 0 0 0, 0 ≤ p.1) := by
  have h1 : mergeVad [((0 : ℚ), (2 : ℚ))] 1 0 0 0 = [(-1, 2)] := by
    norm_num [mergeVad, mergeVadMerged, padActive, annotAdd, support, sortPairs,
      List.insertionSort, List.orderedInsert, sweep]
  refine ⟨h1, ?_⟩
  rw [h1]
  intro h
  have := h (-1, 2) (List.mem_singleton.mpr rfl)
  norm_num at this

/-- C5 (amended): with `pad_onset = 0` (the parameter whose positive
values shift starts below zero), every segment produced by
`Binarize.__call__` on a grid with non-negative strictly increasing
timestamps, and every segment produced by `merge_vad` on intervals with
non-negative starts, satisfies `0 ≤ start < end` — all other parameters
unrestricted.  (`start < end` holds because the pyannote annotation
drops empty regions on insertion.) -/
theorem C5_segment_validity_amended :
    (∀ (P : BinParams) (ts : List ℚ) (tracks : List (List ℚ)),
      P.padOnset = 0 → (∀ τ ∈ ts, 0 ≤ τ) →
      List.Chain' (fun a b : ℚ => a < b) ts →
      ∀ trk ∈ segsOfE (binarize P ts tracks), ∀ p ∈ trk, 0 ≤ p.1 ∧ p.1 < p.2) ∧
    (∀ (vadArr : List (ℚ × ℚ)) (pOn pOff mdOff mdOn : ℚ),
      pOn = 0 → (∀ q ∈ vadArr, 0 ≤ q.1) →
      ∀ p ∈ mergeVad vadArr pOn pOff mdOff mdOn, 0 ≤ p.1 ∧ p.1 < p.2) := by
  constructor
  · intro P ts tracks hpad hts _ trk htrk p hp
    match hpre : mapMExcept (binarizeTrack P ts) tracks with
    | Except.error e =>
      rw [binarize_eq_of_error P ts tracks e hpre] at htrk
      simp [segsOfE] at htrk
    | Except.ok pre =>
      have hvalid : ∀ trk1 ∈ pre, ∀ q ∈ trk1, 0 ≤ q.1 ∧ q.1 < q.2 := by
        intro trk1 htrk1 q hq
        rcases mapMExcept_ok_mem _ tracks pre hpre trk1 htrk1 with ⟨ys, _, hok⟩
        exact binarizeTrack_valid P ts ys trk1 hpad hts hok q hq
      rw [binarize_eq_of_ok P ts tracks pre hpre] at htrk
      by_cases hen : 0 < P.padOffset ∨ 0 < P.padOnset ∨ 0 < P.minDurationOff
      · rw [if_pos hen] at htrk
        cases hmd : P.maxDuration with
        | some m => rw [hmd] at htrk; simp [segsOfE] at htrk
        | none =>
          rw [hmd] at htrk
          simp only [segsOfE] at htrk
          rcases minDurOnFilter_mem htrk with ⟨trk0, htrk0, hsub⟩
          rcases List.mem_map.mp htrk0 with ⟨trk1, htrk1, rfl⟩
          exact support_valid _ _ (hvalid trk1 htrk1) p (hsub p hp)
      · rw [if_neg hen] at htrk
        simp only [segsOfE] at htrk
        rcases minDurOnFilter_mem htrk with ⟨trk0, htrk0, hsub⟩
        exact hvalid trk0 htrk0 p (hsub p hp)
  · intro vadArr pOn pOff mdOff mdOn hpad hval p hp
    rw [mergeVad] at hp
    by_cases hm : 0 < mdOn
    · rw [if_pos hm] at hp
      exact mergeVadMerged_valid vadArr pOn pOff mdOff hpad hval p
        (List.mem_of_mem_filter hp)
    · rw [if_neg hm] at hp
      exact mergeVadMerged_valid vadArr pOn pOff mdOff hpad hval p hp

theorem C5_amended_witness :
    (({ onset := 1 / 2, offset := 1 / 2, minDurationOn := 0, minDurationOff := 0,
        padOnset := 0, padOffset := 0, maxDuration := none } : BinParams).padOnset = 0 ∧
      (∀ τ ∈ ([0, 1] : List ℚ), 0 ≤ τ) ∧
      List.Chain' (fun a b : ℚ => a < b) [0, 1] ∧
      (0 : ℚ) = 0 ∧ (∀ q ∈ [((0 : ℚ), (2 : ℚ))], 0 ≤ q.1)) ∧
    (∀ trk ∈ segsOfE (binarize
        { onset := 1 / 2, offset := 1 / 2, minDurationOn := 0, minDurationOff := 0,
          padOnset := 0, padOffset := 0, maxDuration := none } [0, 1] [[1, 1]]),
      ∀ p ∈ trk, 0 ≤ p.1 ∧ p.1 < p.2) ∧
    (∀ p ∈ mergeVad [((0 : ℚ), (2 : ℚ))] 0 0 0 0, 0 ≤ p.1 ∧ p.1 < p.2) := by
  refine ⟨⟨rfl, by norm_num, ?_, rfl, by norm_num⟩, ?_, ?_⟩
  · exact List.chain'_cons.mpr ⟨by norm_num, List.chain'_singleton _⟩
  · exact C5_segment_validity_amended.1
      { onset := 1 / 2, offset := 1 / 2, minDurationOn := 0, minDurationOff := 0,
        padOnset := 0, padOffset := 0, maxDuration := none } [0, 1] [[1, 1]]
      rfl (by norm_num)
      (List.chain'_cons.mpr ⟨by norm_num, List.chain'_singleton _⟩)
  · exact C5_segment_validity_amended.2 [((0 : ℚ), (2 : ℚ))] 0 0 0 0 rfl (by norm_num)

/-- C7 counterexample: the claim says `merge_vad` always applies the
support/collar merge, so its output never contains two overlapping
intervals.  But the merge is guarded by `pad_offset > 0 or pad_onset > 0
or min_duration_off > 0` (source line 264): with all three zero, the
overlapping inputs `(0, 5)` and `(1, 6)` are returned unmerged and
overlap in the output. -/
theorem C7_counterexample :
    mergeVad [((0 : ℚ), (5 : ℚ)), (1, 6)] 0 0 0 0 = [(0, 5), (1, 6)] ∧
    ¬ List.Pairwise (fun a b : ℚ × ℚ => a.2 ≤ b.1 ∨ b.2 ≤ a.1)
      (mergeVad [((0 : ℚ), (5 : ℚ)), (1, 6)] 0 0 0 0) := by
  have h1 : mergeVad [((0 : ℚ), (5 : ℚ)), (1, 6)] 0 0 0 0 = [(0, 5), (1, 6)] := by
    norm_num [mergeVad, mergeVadMerged, padActive, annotAdd, sortPairs,
      List.insertionSort, List.orderedInsert, rStart]
  refine ⟨h1, ?_⟩
  rw [h1]
  intro h
  have := (List.pairwise_cons.mp h).1 (1, 6) (List.mem_singleton.mpr rfl)
  rcases this with h' | h' <;> norm_num at h'

/-- C7 (amended): `merge_vad` applies padding and then the
support/collar merge only when `padOnset > 0` or `padOffset > 0` or
`minDurationOff > 0`; in that case its output never contains two
intervals that overlap or are separated by a gap smaller than
`minDurationOff` (with all three parameters zero, overlapping inputs
pass through unmerged). -/
theorem C7_merge_gap_amended (vadArr : List (ℚ × ℚ)) (pOn pOff mdOff mdOn : ℚ)
    (h : 0 < pOff ∨ 0 < pOn ∨ 0 < mdOff) :
    List.Pairwise (fun a b : ℚ × ℚ => a.2 < b.1 ∧ mdOff ≤ b.1 - a.2)
      (mergeVad vadArr pOn pOff mdOff mdOn) := by
  have hm : mergeVadMerged vadArr pOn pOff mdOff =
      support mdOff (padActive vadArr pOn pOff) := by
    rw [mergeVadMerged, if_pos h]
  rw [mergeVad]
  by_cases hmd : 0 < mdOn
  · rw [if_pos hmd, hm]
    exact List.Pairwise.sublist (List.filter_sublist _) (support_gap mdOff _)
  · rw [if_neg hmd, hm]
    exact support_gap mdOff _

theorem C7_amended_witness :
    ((0 : ℚ) < 0 ∨ (0 : ℚ) < 0 ∨ (0 : ℚ) < 1 / 5) ∧
    List.Pairwise (fun a b : ℚ × ℚ => a.2 < b.1 ∧ (1 / 5 : ℚ) ≤ b.1 - a.2)
      (mergeVad [((0 : ℚ), (5 : ℚ)), (51 / 10, 8)] 0 0 (1 / 5) 0) :=
  ⟨by norm_num,
    C7_merge_gap_amended [((0 : ℚ), (5 : ℚ)), (51 / 10, 8)] 0 0 (1 / 5) 0
      (by norm_num)⟩

end WhisperXVad
